import Mathlib

/-!
Verification of the ERISieve integral-screening engine (psi4 libmints sieve.cc).

The source is embedded shallowly over exact rationals:

* a basis is a list of per-shell function counts; function base offsets are
  the prefix sums, so every shell owns a contiguous block of function indices
  (the Basis collaborator guarantee stated at the interface boundary);
* the external two-electron integral evaluator is an abstract function
  `Buffer` from the requested shell quadruple and a flat buffer index to a
  value; the exact buffer-layout index expressions of the source are kept;
* the library square root used by csam_integrals is an abstract
  function parameter, since no verified property depends on its values;
* flat C++ vectors of double become total functions from the flat index.

Definitions mirror the member functions ERISieve::integrals,
ERISieve::csam_integrals, ERISieve::set_sieve and
ERISieve::shell_significant_csam statement by statement.
-/

namespace Psi

/-- External integral evaluator: compute_shell on a quadruple fills a buffer,
read at flat indices. -/
abbrev Buffer : Type := ℕ × ℕ × ℕ × ℕ → ℕ → ℚ

/-- Pointwise update of a flat array modelled as a total function. -/
def updateFn (f : ℕ → ℚ) (i : ℕ) (v : ℚ) : ℕ → ℚ :=
  fun j => if j = i then v else f j

/-- The canonical lower-triangular traversal order of the source:
M ascending from 0, and for each M, N ascending from 0 to M. -/
def lowerPairs (n : ℕ) : List (ℕ × ℕ) :=
  (List.range n).flatMap (fun M => (List.range (M + 1)).map (fun N => (M, N)))

/-- All (p, q) with p < nP, q < nQ in the nested loop order of the source. -/
def blockPairs (nP nQ : ℕ) : List (ℕ × ℕ) :=
  (List.range nP).flatMap (fun p => (List.range nQ).map (fun q => (p, q)))

/-- Base function offset of shell P: sum of the function counts of the
shells before it (BasisSet function_index). -/
def offsetOf (basis : List ℕ) (P : ℕ) : ℕ :=
  (basis.take P).sum

/-- Shell containing function index f (inverse of the contiguous block
layout). -/
def shellOf : List ℕ → ℕ → ℕ
  | [], _ => 0
  | c :: cs, f => if f < c then 0 else shellOf cs (f - c) + 1

/-- Flat index of the diagonal element (pq|pq) inside the buffer of
compute_shell(P, Q, P, Q), as written in ERISieve::integrals. -/
def schwarzIdx (nP nQ p q : ℕ) : ℕ :=
  p * (nQ * nP * nQ + nQ) + q * (nP * nQ + 1)

/-- Flat index of the element (pp|pp) inside the buffer of
compute_shell(P, P, Q, Q) with Q = P, as written in ERISieve::csam_integrals. -/
def diagIdx (nP p : ℕ) : ℕ :=
  p * (nP * nP * nP + nP) + p * (nP * nP + 1)

/-- Flat index of the element (pp|qq) inside the buffer of
compute_shell(P, P, Q, Q), as written in ERISieve::csam_integrals. -/
def crossIdx (nP nQ p q : ℕ) : ℕ :=
  p * nQ * nQ * (nP + 1) + q * (nQ + 1)

/-- The max_val loop of ERISieve::integrals for one shell pair (P, Q): the
maximum absolute diagonal element over the function block, starting at 0. -/
def schwarzBM (basis : List ℕ) (buf : Buffer) (P Q : ℕ) : ℚ :=
  ((blockPairs (basis.getD P 0) (basis.getD Q 0)).map
    (fun pq => |buf (P, Q, P, Q) (schwarzIdx (basis.getD P 0) (basis.getD Q 0) pq.1 pq.2)|)).foldl
    max 0

/-- One double-assignment per (p, q) of the block write loop in
ERISieve::integrals, folded over a pair list. -/
def writeSym (a b : ℕ × ℕ → ℕ) (v : ℚ) (l : List (ℕ × ℕ)) (F : ℕ → ℚ) : ℕ → ℚ :=
  l.foldl (fun g pq => updateFn (updateFn g (a pq) v) (b pq) v) F

/-- The state ERISieve, with flat double vectors as total functions. -/
structure ERISieve where
  nshell_ : ℕ
  nbf_ : ℕ
  shell_pair_values_ : ℕ → ℚ
  function_pair_values_ : ℕ → ℚ
  shell_pair_exchange_values_ : ℕ → ℚ
  function_sqrt_ : ℕ → ℚ
  max_ : ℚ
  sieve_ : ℚ
  sieve2_ : ℚ
  sieve_over_max_ : ℚ
  sieve2_over_max_ : ℚ
  shell_pairs_ : List (ℕ × ℕ)
  function_pairs_ : List (ℕ × ℕ)
  shell_pairs_reverse_ : List ℤ
  function_pairs_reverse_ : List ℤ
  shell_to_shell_ : List (List ℕ)
  function_to_function_ : List (List ℕ)

/-- Default-constructed state before common_init runs. -/
def initState : ERISieve where
  nshell_ := 0
  nbf_ := 0
  shell_pair_values_ := fun _ => 0
  function_pair_values_ := fun _ => 0
  shell_pair_exchange_values_ := fun _ => 0
  function_sqrt_ := fun _ => 0
  max_ := 0
  sieve_ := 0
  sieve2_ := 0
  sieve_over_max_ := 0
  sieve2_over_max_ := 0
  shell_pairs_ := []
  function_pairs_ := []
  shell_pairs_reverse_ := []
  function_pairs_reverse_ := []
  shell_to_shell_ := []
  function_to_function_ := []

/-- Body of the (P, Q) iteration of ERISieve::integrals, acting on the
triple (shell_pair_values_, function_pair_values_, max_). -/
def integralsStep (basis : List ℕ) (buf : Buffer) (nshell nbf : ℕ)
    (st : (ℕ → ℚ) × (ℕ → ℚ) × ℚ) (PQ : ℕ × ℕ) : (ℕ → ℚ) × (ℕ → ℚ) × ℚ :=
  let P := PQ.1
  let Q := PQ.2
  let nP := basis.getD P 0
  let nQ := basis.getD Q 0
  let oP := offsetOf basis P
  let oQ := offsetOf basis Q
  let max_val := schwarzBM basis buf P Q
  (updateFn (updateFn st.1 (P * nshell + Q) max_val) (Q * nshell + P) max_val,
   writeSym (fun pq => (pq.1 + oP) * nbf + (pq.2 + oQ))
            (fun pq => (pq.2 + oQ) * nbf + (pq.1 + oP)) max_val (blockPairs nP nQ) st.2.1,
   max st.2.2 max_val)

/-- ERISieve::integrals: memset both bound matrices to zero, reset max_ to
zero and run the canonical lower-triangular double loop. -/
def integrals (basis : List ℕ) (buf : Buffer) (s : ERISieve) : ERISieve :=
  let nshell := basis.length
  let nbf := basis.sum
  let res := (lowerPairs nshell).foldl (integralsStep basis buf nshell nbf)
    ((fun _ => 0), (fun _ => 0), 0)
  { s with
    nshell_ := nshell
    nbf_ := nbf
    shell_pair_values_ := res.1
    function_pair_values_ := res.2.1
    max_ := res.2.2 }

/-- One descending inner row of the csam traversal: (m, m), (m, m-1), ..., (m, 0). -/
def csamRow (m : ℕ) : List (ℕ × ℕ) :=
  ((List.range (m + 1)).reverse).map (fun Q => (m, Q))

/-- Outer-ascending, inner-descending shell pair traversal of
ERISieve::csam_integrals. -/
def csamPairs (n : ℕ) : List (ℕ × ℕ) :=
  (List.range n).flatMap csamRow

/-- The max_val loop of ERISieve::csam_integrals for shells (P, Q), with the
current diagonal square root vector supplied as sq: the maximum over the
block of the absolute cross element divided by the two diagonal square
roots. -/
def csamVal (basis : List ℕ) (buf : Buffer) (P Q : ℕ) (sq : ℕ → ℚ) : ℚ :=
  ((blockPairs (basis.getD P 0) (basis.getD Q 0)).map
    (fun pq => |buf (P, P, Q, Q) (crossIdx (basis.getD P 0) (basis.getD Q 0) pq.1 pq.2)| /
      (sq (pq.1 + offsetOf basis P) * sq (pq.2 + offsetOf basis Q)))).foldl max 0

/-- Body of the (P, Q) iteration of ERISieve::csam_integrals, acting on the
pair (function_sqrt_, shell_pair_exchange_values_).  When Q = P the diagonal
square roots of shell P are stored first, then the cross maximum is taken
with the current function_sqrt_ entries as divisors. -/
def csamStep (basis : List ℕ) (buf : Buffer) (sqrtFn : ℚ → ℚ) (n : ℕ)
    (st : (ℕ → ℚ) × (ℕ → ℚ)) (PQ : ℕ × ℕ) : (ℕ → ℚ) × (ℕ → ℚ) :=
  let P := PQ.1
  let Q := PQ.2
  let nP := basis.getD P 0
  let oP := offsetOf basis P
  let sq :=
    if Q = P then
      (List.range nP).foldl
        (fun g p => updateFn g (oP + p) (sqrtFn |buf (P, P, Q, Q) (diagIdx nP p)|)) st.1
    else st.1
  let max_val := csamVal basis buf P Q sq
  (sq, updateFn (updateFn st.2 (P * n + Q) max_val) (Q * n + P) max_val)

/-- ERISieve::csam_integrals: zero-fill function_sqrt_ and
shell_pair_exchange_values_, then run the csam traversal. -/
def csam_integrals (basis : List ℕ) (buf : Buffer) (sqrtFn : ℚ → ℚ) (s : ERISieve) :
    ERISieve :=
  let n := s.nshell_
  let res := (csamPairs n).foldl (csamStep basis buf sqrtFn n) ((fun _ => 0), (fun _ => 0))
  { s with
    function_sqrt_ := res.1
    shell_pair_exchange_values_ := res.2 }

/-- The significance pass of ERISieve::set_sieve over one pair list: walks
the canonical pairs in order carrying the running offset, pushing
significant pairs and writing offset or -1 into the packed reverse map. -/
def sievePass (cutoff : ℚ) (v : ℕ × ℕ → ℚ) : List (ℕ × ℕ) → ℤ → List (ℕ × ℕ) × List ℤ
  | [], _ => ([], [])
  | p :: ps, off =>
    if cutoff ≤ v p then
      ((p :: (sievePass cutoff v ps (off + 1)).1), off :: (sievePass cutoff v ps (off + 1)).2)
    else
      ((sievePass cutoff v ps off).1, (-1 : ℤ) :: (sievePass cutoff v ps off).2)

/-- ERISieve::set_sieve: store the threshold and its derived cutoffs, rebuild
both significance lists with their packed reverse maps, and rebuild both full
adjacency lists.  The bound matrices and max_ are untouched. -/
def set_sieve (s : ERISieve) (sieve : ℚ) : ERISieve :=
  let sieve2 := sieve * sieve
  let cutoff := sieve2 / s.max_
  let sp := sievePass cutoff (fun pq => s.shell_pair_values_ (pq.1 * s.nshell_ + pq.2))
    (lowerPairs s.nshell_) 0
  let fp := sievePass cutoff (fun pq => s.function_pair_values_ (pq.1 * s.nbf_ + pq.2))
    (lowerPairs s.nbf_) 0
  { s with
    sieve_ := sieve
    sieve2_ := sieve2
    sieve_over_max_ := sieve / s.max_
    sieve2_over_max_ := cutoff
    shell_pairs_ := sp.1
    shell_pairs_reverse_ := sp.2
    function_pairs_ := fp.1
    function_pairs_reverse_ := fp.2
    shell_to_shell_ :=
      (List.range s.nshell_).map (fun M =>
        (List.range s.nshell_).filter (fun N =>
          decide (cutoff ≤ s.shell_pair_values_ (M * s.nshell_ + N))))
    function_to_function_ :=
      (List.range s.nbf_).map (fun m =>
        (List.range s.nbf_).filter (fun nu =>
          decide (cutoff ≤ s.function_pair_values_ (m * s.nbf_ + nu)))) }

/-- ERISieve::shell_significant_csam, reading the stored matrices with the
exact index expressions of the source. -/
def shell_significant_csam (s : ERISieve) (M N R S : ℕ) : Bool :=
  let n := s.nshell_
  let mn_mn := s.shell_pair_values_ (N * n + M)
  let rs_rs := s.shell_pair_values_ (S * n + R)
  let mm_rr := s.shell_pair_exchange_values_ (R * n + M)
  let nn_ss := s.shell_pair_exchange_values_ (S * n + N)
  let mm_ss := s.shell_pair_exchange_values_ (S * n + M)
  let nn_rr := s.shell_pair_exchange_values_ (R * n + N)
  let csam_2 := max (mm_rr * nn_ss) (mm_ss * nn_rr)
  let mnrs_2 := mn_mn * rs_rs * csam_2
  decide (s.sieve2_ ≤ |mnrs_2|)

/-- ERISieve::common_init: integrals, optionally csam_integrals, then
set_sieve with the constructor threshold. -/
def common_init (basis : List ℕ) (buf : Buffer) (sqrtFn : ℚ → ℚ) (do_csam : Bool)
    (sieve : ℚ) : ERISieve :=
  let s1 := integrals basis buf initState
  let s2 := if do_csam then csam_integrals basis buf sqrtFn s1 else s1
  set_sieve s2 sieve

/-- The fully populated diagonal square root of function f: the value
ERISieve::csam_integrals stores at f on the iteration where the shell of f
is the outer shell. -/
def finalSqrt (basis : List ℕ) (buf : Buffer) (sqrtFn : ℚ → ℚ) (f : ℕ) : ℚ :=
  let S := shellOf basis f
  let nS := basis.getD S 0
  sqrtFn |buf (S, S, S, S) (diagIdx nS (f - offsetOf basis S))|

/-- The csam cross maximum of shells (P, Q) computed as if every diagonal
square root divisor were already fully populated. -/
def csamXPure (basis : List ℕ) (buf : Buffer) (sqrtFn : ℚ → ℚ) (P Q : ℕ) : ℚ :=
  csamVal basis buf P Q (finalSqrt basis buf sqrtFn)

/-- The 2-shell toy system of the specification: two shells with one
function each and D = [[4, 1], [1, 9]], so max_ = 9. -/
def toyBuf : Buffer := fun pqrs _ =>
  if pqrs = (0, 0, 0, 0) then 4 else if pqrs = (1, 0, 1, 0) then 1 else
    if pqrs = (1, 1, 1, 1) then 9 else 0

/-- Toy state built by the real bound builder on the toy system. -/
def toySieve : ERISieve := integrals [1, 1] toyBuf initState

/-- A degenerate system with a single all-zero shell, so max_ = 0. -/
def zeroSieve : ERISieve := integrals [1] (fun _ _ => 0) initState

/-- Strict lexicographic order on canonical pairs: M ascending, then N. -/
def lexLt (a b : ℕ × ℕ) : Prop := a.1 < b.1 ∨ (a.1 = b.1 ∧ a.2 < b.2)

/-! ### Lemmas on the canonical traversal order -/

theorem lowerPairs_succ (n : ℕ) :
    lowerPairs (n + 1) = lowerPairs n ++ (List.range (n + 1)).map (fun N => (n, N)) := by
  simp [lowerPairs, List.range_succ]

theorem mem_lowerPairs {n M N : ℕ} : (M, N) ∈ lowerPairs n ↔ M < n ∧ N ≤ M := by
  simp only [lowerPairs, List.mem_flatMap, List.mem_map, List.mem_range, Prod.mk.injEq]
  constructor
  · rintro ⟨a, ha, b, hb, rfl, rfl⟩
    omega
  · rintro ⟨hM, hN⟩
    exact ⟨M, hM, N, by omega, rfl, rfl⟩

theorem length_lowerPairs (n : ℕ) : (lowerPairs n).length = n * (n + 1) / 2 := by
  induction n with
  | zero => rfl
  | succ n ih =>
    rw [lowerPairs_succ, List.length_append, ih, List.length_map, List.length_range]
    have h2 : n * (n + 1) % 2 = 0 := Nat.even_iff.mp (Nat.even_mul_succ_self n)
    have h3 : (n + 1) * (n + 1 + 1) = n * (n + 1) + 2 * (n + 1) := by ring
    omega

theorem length_lowerPairs_mono : ∀ {m n : ℕ}, m ≤ n →
    (lowerPairs m).length ≤ (lowerPairs n).length := by
  intro m n
  induction n with
  | zero => intro h; simp_all
  | succ n ih =>
    intro h
    rcases Nat.lt_or_ge m (n + 1) with h1 | h1
    · calc (lowerPairs m).length ≤ (lowerPairs n).length := ih (by omega)
        _ ≤ _ := by rw [lowerPairs_succ]; simp
    · have h2 : m = n + 1 := by omega
      subst h2; exact le_rfl

theorem getD_lowerPairs : ∀ (n M N : ℕ), N ≤ M → M < n → ∀ d : ℕ × ℕ,
    (lowerPairs n).getD (M * (M + 1) / 2 + N) d = (M, N) := by
  intro n
  induction n with
  | zero => intro M N hN hM d; exact absurd hM (Nat.not_lt_zero M)
  | succ n ih =>
    intro M N hN hM d
    have hidx : M * (M + 1) / 2 + N = (lowerPairs M).length + N := by
      rw [length_lowerPairs]
    rw [lowerPairs_succ]
    rcases Nat.lt_or_ge M n with h1 | h1
    · have hlen : M * (M + 1) / 2 + N < (lowerPairs n).length := by
        have h2 : (lowerPairs (M + 1)).length ≤ (lowerPairs n).length :=
          length_lowerPairs_mono (by omega)
        have h3 : (lowerPairs (M + 1)).length = (lowerPairs M).length + (M + 1) := by
          rw [lowerPairs_succ]; simp
        omega
      rw [List.getD_append _ _ _ _ hlen]
      exact ih M N hN h1 d
    · have hMn : M = n := by omega
      subst hMn
      rw [hidx, List.getD_append_right _ _ _ _ (Nat.le_add_right _ _),
        Nat.add_sub_cancel_left]
      have hN1 : N < ((List.range (M + 1)).map (fun N => (M, N))).length := by
        simp; omega
      rw [List.getD_eq_getElem _ _ hN1]
      simp

theorem pairwise_lowerPairs (n : ℕ) : (lowerPairs n).Pairwise lexLt := by
  induction n with
  | zero => exact List.Pairwise.nil
  | succ n ih =>
    rw [lowerPairs_succ, List.pairwise_append]
    refine ⟨ih, ?_, ?_⟩
    · rw [List.pairwise_map]
      exact (List.pairwise_lt_range (n + 1)).imp (fun h => Or.inr ⟨rfl, h⟩)
    · intro a ha b hb
      rw [List.mem_map] at hb
      obtain ⟨Nb, _, rfl⟩ := hb
      rcases a with ⟨Ma, Na⟩
      exact Or.inl (mem_lowerPairs.mp ha).1

/-! ### Lemmas on the significance pass -/

theorem sievePass_fst (c : ℚ) (v : ℕ × ℕ → ℚ) :
    ∀ (ps : List (ℕ × ℕ)) (off : ℤ),
      (sievePass c v ps off).1 = ps.filter (fun p => decide (c ≤ v p)) := by
  intro ps
  induction ps with
  | nil => intro off; rfl
  | cons p ps ih =>
    intro off
    by_cases h : c ≤ v p <;> simp [sievePass, h, List.filter_cons, ih]

theorem sievePass_snd_length (c : ℚ) (v : ℕ × ℕ → ℚ) :
    ∀ (ps : List (ℕ × ℕ)) (off : ℤ), (sievePass c v ps off).2.length = ps.length := by
  intro ps
  induction ps with
  | nil => intro off; rfl
  | cons p ps ih =>
    intro off
    by_cases h : c ≤ v p <;> simp [sievePass, h, ih]

theorem sievePass_snd_getD (c : ℚ) (v : ℕ × ℕ → ℚ) :
    ∀ (ps : List (ℕ × ℕ)) (off : ℤ) (k : ℕ), k < ps.length →
      (sievePass c v ps off).2.getD k 0 =
        if c ≤ v (ps.getD k (0, 0)) then
          off + ((ps.take k).countP (fun p => decide (c ≤ v p)) : ℤ)
        else -1 := by
  intro ps
  induction ps with
  | nil => intro off k hk; simp at hk
  | cons p ps ih =>
    intro off k hk
    match k with
    | 0 => by_cases h : c ≤ v p <;> simp [sievePass, h]
    | k + 1 =>
      have hk' : k < ps.length := by simpa using hk
      by_cases h : c ≤ v p
      · have hd : (decide (c ≤ v p)) = true := decide_eq_true h
        simp only [sievePass, if_pos h, List.getD_cons_succ, List.take_succ_cons,
          List.countP_cons, ih (off + 1) k hk', hd, if_true]
        split
        · push_cast; ring
        · rfl
      · have hd : (decide (c ≤ v p)) = false := decide_eq_false h
        simp only [sievePass, if_neg h, List.getD_cons_succ, List.take_succ_cons,
          List.countP_cons, ih off k hk', hd, if_false]
        split
        · push_cast; ring
        · rfl

theorem filter_getD_countP {α : Type} (pred : α → Bool) (d : α) :
    ∀ (ps : List α) (k : ℕ), k < ps.length → pred (ps.getD k d) = true →
      (ps.filter pred).getD ((ps.take k).countP pred) d = ps.getD k d := by
  intro ps
  induction ps with
  | nil => intro k hk; simp at hk
  | cons p ps ih =>
    intro k hk hpred
    match k with
    | 0 =>
      simp only [List.getD_cons_zero] at hpred ⊢
      simp [List.filter_cons, hpred]
    | k + 1 =>
      have hk' : k < ps.length := by simpa using hk
      simp only [List.getD_cons_succ] at hpred ⊢
      have hih := ih k hk' hpred
      by_cases hp : pred p = true
      · simp only [List.take_succ_cons, List.filter_cons, hp, if_true, List.countP_cons,
          List.getD_cons_succ]
        simpa using hih
      · simp only [Bool.not_eq_true] at hp
        simp only [List.take_succ_cons, List.filter_cons, hp, Bool.false_eq_true, if_false,
          List.countP_cons, Nat.add_zero]
        simpa [hp] using hih

theorem triangular_lt {n M N : ℕ} (hN : N ≤ M) (hM : M < n) :
    M * (M + 1) / 2 + N < (lowerPairs n).length := by
  have h2 : (lowerPairs (M + 1)).length ≤ (lowerPairs n).length :=
    length_lowerPairs_mono (by omega)
  have h3 : (lowerPairs (M + 1)).length = (lowerPairs M).length + (M + 1) := by
    rw [lowerPairs_succ]; simp
  have h4 : M * (M + 1) / 2 = (lowerPairs M).length := (length_lowerPairs M).symm
  omega

theorem sievePass_mem (c : ℚ) (v : ℕ × ℕ → ℚ) (n M N : ℕ) :
    (M, N) ∈ (sievePass c v (lowerPairs n) 0).1 ↔ N ≤ M ∧ M < n ∧ c ≤ v (M, N) := by
  rw [sievePass_fst, List.mem_filter, mem_lowerPairs, decide_eq_true_iff]
  tauto

theorem sievePass_pairwise (c : ℚ) (v : ℕ × ℕ → ℚ) (n : ℕ) :
    (sievePass c v (lowerPairs n) 0).1.Pairwise lexLt := by
  rw [sievePass_fst]
  exact List.Pairwise.sublist (List.filter_sublist _) (pairwise_lowerPairs n)

theorem sievePass_reverse_spec (c : ℚ) (v : ℕ × ℕ → ℚ) {n M N : ℕ}
    (hMN : N ≤ M) (hM : M < n) :
    ((sievePass c v (lowerPairs n) 0).2.getD (M * (M + 1) / 2 + N) 0 = -1 ↔
      (M, N) ∉ (sievePass c v (lowerPairs n) 0).1) ∧
    ((sievePass c v (lowerPairs n) 0).2.getD (M * (M + 1) / 2 + N) 0 ≠ -1 →
      (sievePass c v (lowerPairs n) 0).1.getD
        ((sievePass c v (lowerPairs n) 0).2.getD (M * (M + 1) / 2 + N) 0).toNat (0, 0) =
        (M, N)) := by
  have hk : M * (M + 1) / 2 + N < (lowerPairs n).length := triangular_lt hMN hM
  have hgetD : (lowerPairs n).getD (M * (M + 1) / 2 + N) (0, 0) = (M, N) :=
    getD_lowerPairs n M N hMN hM (0, 0)
  have hrev := sievePass_snd_getD c v (lowerPairs n) 0 (M * (M + 1) / 2 + N) hk
  rw [hgetD] at hrev
  by_cases hc : c ≤ v (M, N)
  · rw [if_pos hc] at hrev
    rw [hrev]
    have hmem : (M, N) ∈ (sievePass c v (lowerPairs n) 0).1 :=
      (sievePass_mem c v n M N).mpr ⟨hMN, hM, hc⟩
    constructor
    · exact iff_of_false (by omega) (by simpa using hmem)
    · intro _
      have htn : ((0 : ℤ) +
          ((((lowerPairs n).take (M * (M + 1) / 2 + N)).countP
            (fun p => decide (c ≤ v p))) : ℤ)).toNat =
          ((lowerPairs n).take (M * (M + 1) / 2 + N)).countP (fun p => decide (c ≤ v p)) := by
        omega
      rw [htn, sievePass_fst]
      have hpred : decide (c ≤ v ((lowerPairs n).getD (M * (M + 1) / 2 + N) (0, 0))) = true := by
        rw [hgetD]; exact decide_eq_true hc
      have hres := filter_getD_countP (fun p => decide (c ≤ v p)) (0, 0) (lowerPairs n)
        (M * (M + 1) / 2 + N) hk hpred
      rw [hgetD] at hres
      exact hres
  · rw [if_neg hc] at hrev
    rw [hrev]
    refine ⟨iff_of_true rfl ?_, fun hne => absurd rfl hne⟩
    intro hmem
    exact hc ((sievePass_mem c v n M N).mp hmem).2.2

theorem adjacency_spec (c : ℚ) (w : ℕ → ℚ) {n M : ℕ} (hM : M < n) (N : ℕ) :
    (N ∈ ((List.range n).map (fun M =>
        (List.range n).filter (fun N => decide (c ≤ w (M * n + N))))).getD M [] ↔
      N < n ∧ c ≤ w (M * n + N)) ∧
    (((List.range n).map (fun M =>
        (List.range n).filter (fun N => decide (c ≤ w (M * n + N))))).getD M []).Pairwise
      (· < ·) := by
  have hlen : M < ((List.range n).map (fun M =>
      (List.range n).filter (fun N => decide (c ≤ w (M * n + N))))).length := by
    simpa using hM
  rw [List.getD_eq_getElem _ _ hlen, List.getElem_map, List.getElem_range]
  constructor
  · rw [List.mem_filter, List.mem_range, decide_eq_true_iff]
  · exact List.Pairwise.sublist (List.filter_sublist _) (List.pairwise_lt_range n)

/-! ### The claims -/

/-- C1: After any call to set_sieve(τ), for every canonical shell pair (M, N)
with nshell > M ≥ N ≥ 0 the packed reverse map satisfies
shell_pairs_reverse_[M(M+1)/2 + N] = -1 iff (M, N) is absent from
shell_pairs_, and otherwise shell_pairs_[shell_pairs_reverse_[...]] = (M, N);
the same correspondence holds between function_pairs_reverse_ and
function_pairs_ for every canonical function pair. -/
theorem C1_reverse_map_correspondence (s : ERISieve) (τ : ℚ) (M N p q : ℕ)
    (hMN : N ≤ M) (hM : M < s.nshell_) (hpq : q ≤ p) (hp : p < s.nbf_) :
    ((set_sieve s τ).shell_pairs_reverse_.getD (M * (M + 1) / 2 + N) 0 = -1 ↔
      (M, N) ∉ (set_sieve s τ).shell_pairs_) ∧
    ((set_sieve s τ).shell_pairs_reverse_.getD (M * (M + 1) / 2 + N) 0 ≠ -1 →
      (set_sieve s τ).shell_pairs_.getD
        ((set_sieve s τ).shell_pairs_reverse_.getD (M * (M + 1) / 2 + N) 0).toNat (0, 0) =
        (M, N)) ∧
    ((set_sieve s τ).function_pairs_reverse_.getD (p * (p + 1) / 2 + q) 0 = -1 ↔
      (p, q) ∉ (set_sieve s τ).function_pairs_) ∧
    ((set_sieve s τ).function_pairs_reverse_.getD (p * (p + 1) / 2 + q) 0 ≠ -1 →
      (set_sieve s τ).function_pairs_.getD
        ((set_sieve s τ).function_pairs_reverse_.getD (p * (p + 1) / 2 + q) 0).toNat (0, 0) =
        (p, q)) := by
  have hs := sievePass_reverse_spec (τ * τ / s.max_)
    (fun pq => s.shell_pair_values_ (pq.1 * s.nshell_ + pq.2)) hMN hM
  have hf := sievePass_reverse_spec (τ * τ / s.max_)
    (fun pq => s.function_pair_values_ (pq.1 * s.nbf_ + pq.2)) hpq hp
  exact ⟨hs.1, hs.2, hf.1, hf.2⟩

/-- C1 witness at the 2-shell toy system with threshold 6, where the shell
pair (1, 0) is absent and function pair (1, 0) is absent. -/
theorem C1_witness :
    (((set_sieve toySieve 6).shell_pairs_reverse_.getD (1 * (1 + 1) / 2 + 0) 0 = -1 ↔
      (1, 0) ∉ (set_sieve toySieve 6).shell_pairs_) ∧
    ((set_sieve toySieve 6).shell_pairs_reverse_.getD (1 * (1 + 1) / 2 + 0) 0 ≠ -1 →
      (set_sieve toySieve 6).shell_pairs_.getD
        ((set_sieve toySieve 6).shell_pairs_reverse_.getD (1 * (1 + 1) / 2 + 0) 0).toNat
        (0, 0) = (1, 0)) ∧
    ((set_sieve toySieve 6).function_pairs_reverse_.getD (1 * (1 + 1) / 2 + 0) 0 = -1 ↔
      (1, 0) ∉ (set_sieve toySieve 6).function_pairs_) ∧
    ((set_sieve toySieve 6).function_pairs_reverse_.getD (1 * (1 + 1) / 2 + 0) 0 ≠ -1 →
      (set_sieve toySieve 6).function_pairs_.getD
        ((set_sieve toySieve 6).function_pairs_reverse_.getD (1 * (1 + 1) / 2 + 0) 0).toNat
        (0, 0) = (1, 0))) :=
  C1_reverse_map_correspondence toySieve 6 1 0 1 0 (by decide)
    (by with_unfolding_all decide) (by decide) (by with_unfolding_all decide)

/-- C2: After any call to set_sieve(τ), shell_to_shell_[M] contains exactly
those N in [0, nshell) with D[M][N] ≥ τ²/max_, in ascending order of N;
identically for function_to_function_ with the function-pair bounds. -/
theorem C2_adjacency_completeness (s : ERISieve) (τ : ℚ) (M m : ℕ)
    (hM : M < s.nshell_) (hm : m < s.nbf_) (N nu : ℕ) :
    (N ∈ (set_sieve s τ).shell_to_shell_.getD M [] ↔
      N < s.nshell_ ∧ τ * τ / s.max_ ≤ s.shell_pair_values_ (M * s.nshell_ + N)) ∧
    ((set_sieve s τ).shell_to_shell_.getD M []).Pairwise (· < ·) ∧
    (nu ∈ (set_sieve s τ).function_to_function_.getD m [] ↔
      nu < s.nbf_ ∧ τ * τ / s.max_ ≤ s.function_pair_values_ (m * s.nbf_ + nu)) ∧
    ((set_sieve s τ).function_to_function_.getD m []).Pairwise (· < ·) := by
  have hs := adjacency_spec (τ * τ / s.max_) s.shell_pair_values_ hM N
  have hf := adjacency_spec (τ * τ / s.max_) s.function_pair_values_ hm nu
  exact ⟨hs.1, hs.2, hf.1, hf.2⟩

/-- C2 witness at the 2-shell toy system with threshold 6: row 0 of the
shell adjacency drops shell 1 and row 0 of the function adjacency drops
function 1. -/
theorem C2_witness :
    ((1 ∈ (set_sieve toySieve 6).shell_to_shell_.getD 0 [] ↔
      1 < toySieve.nshell_ ∧
        (6 : ℚ) * 6 / toySieve.max_ ≤ toySieve.shell_pair_values_ (0 * toySieve.nshell_ + 1)) ∧
    ((set_sieve toySieve 6).shell_to_shell_.getD 0 []).Pairwise (· < ·) ∧
    (1 ∈ (set_sieve toySieve 6).function_to_function_.getD 0 [] ↔
      1 < toySieve.nbf_ ∧
        (6 : ℚ) * 6 / toySieve.max_ ≤
          toySieve.function_pair_values_ (0 * toySieve.nbf_ + 1)) ∧
    ((set_sieve toySieve 6).function_to_function_.getD 0 []).Pairwise (· < ·)) :=
  C2_adjacency_completeness toySieve 6 0 0 (by with_unfolding_all decide)
    (by with_unfolding_all decide) 1 1

/-- C3: After any call to set_sieve(τ), shell_pairs_ contains exactly the
canonical pairs (M, N) with M ≥ N and D[M][N] ≥ τ²/max_, in strictly
lexicographically ascending order (M ascending, then N ascending);
identically for function_pairs_. -/
theorem C3_significance_list (s : ERISieve) (τ : ℚ) (M N p q : ℕ) :
    ((M, N) ∈ (set_sieve s τ).shell_pairs_ ↔
      N ≤ M ∧ M < s.nshell_ ∧
        τ * τ / s.max_ ≤ s.shell_pair_values_ (M * s.nshell_ + N)) ∧
    (set_sieve s τ).shell_pairs_.Pairwise lexLt ∧
    ((p, q) ∈ (set_sieve s τ).function_pairs_ ↔
      q ≤ p ∧ p < s.nbf_ ∧
        τ * τ / s.max_ ≤ s.function_pair_values_ (p * s.nbf_ + q)) ∧
    (set_sieve s τ).function_pairs_.Pairwise lexLt :=
  ⟨sievePass_mem _ _ s.nshell_ M N, sievePass_pairwise _ _ s.nshell_,
   sievePass_mem _ _ s.nbf_ p q, sievePass_pairwise _ _ s.nbf_⟩

/-- C4 counterexample: with the bound matrices of the 2-shell toy system,
the thresholds τ1 = -6 < τ2 = 2 give a shell pair (1, 0) that is significant
at τ2 but not at τ1, because the cutoff depends on τ² and 36 > 4.  So the
significant set at the larger threshold is not a subset of the set at the
smaller threshold when thresholds may be negative. -/
theorem C4_counterexample :
    (-6 : ℚ) < 2 ∧ (1, 0) ∈ (set_sieve toySieve 2).shell_pairs_ ∧
      (1, 0) ∉ (set_sieve toySieve (-6)).shell_pairs_ ∧
      (1, 0) ∈ (set_sieve toySieve 2).function_pairs_ ∧
      (1, 0) ∉ (set_sieve toySieve (-6)).function_pairs_ := by
  with_unfolding_all decide

/-- C4 (amended): for nonnegative thresholds τ1 < τ2 applied via set_sieve
to the same bound matrices with nonnegative max_ (an invariant of the bound
builder), the significant shell-pair set at τ2 is a subset of the set at τ1,
and likewise for function pairs. -/
theorem C4_monotonic_shrink (s : ERISieve) (τ1 τ2 : ℚ) (h0 : 0 ≤ τ1) (h12 : τ1 < τ2)
    (hmax : 0 ≤ s.max_) :
    (∀ pq : ℕ × ℕ, pq ∈ (set_sieve s τ2).shell_pairs_ → pq ∈ (set_sieve s τ1).shell_pairs_) ∧
    (∀ pq : ℕ × ℕ, pq ∈ (set_sieve s τ2).function_pairs_ →
      pq ∈ (set_sieve s τ1).function_pairs_) := by
  have hcut : τ1 * τ1 / s.max_ ≤ τ2 * τ2 / s.max_ := by
    rcases eq_or_lt_of_le hmax with h | h
    · rw [← h, div_zero, div_zero]
    · have h2 : τ1 * τ1 ≤ τ2 * τ2 := mul_self_le_mul_self h0 (le_of_lt h12)
      exact div_le_div_of_nonneg_right h2 (le_of_lt h)
  constructor
  · rintro ⟨M, N⟩ hmem
    have h2 := (sievePass_mem _ _ s.nshell_ M N).mp hmem
    exact (sievePass_mem _ _ s.nshell_ M N).mpr ⟨h2.1, h2.2.1, le_trans hcut h2.2.2⟩
  · rintro ⟨M, N⟩ hmem
    have h2 := (sievePass_mem _ _ s.nbf_ M N).mp hmem
    exact (sievePass_mem _ _ s.nbf_ M N).mpr ⟨h2.1, h2.2.1, le_trans hcut h2.2.2⟩

/-- C4 witness at the toy system: the spec scenario τ1 = 2, τ2 = 6. -/
theorem C4_witness :
    (∀ pq : ℕ × ℕ, pq ∈ (set_sieve toySieve 6).shell_pairs_ →
      pq ∈ (set_sieve toySieve 2).shell_pairs_) ∧
    (∀ pq : ℕ × ℕ, pq ∈ (set_sieve toySieve 6).function_pairs_ →
      pq ∈ (set_sieve toySieve 2).function_pairs_) :=
  C4_monotonic_shrink toySieve 2 6 (by norm_num) (by norm_num)
    (by with_unfolding_all decide)

/-- C7: set_sieve never modifies the bound matrices, the exchange matrix,
the diagonal square roots or max_, and it is idempotent: a second call with
the same threshold reproduces exactly the same state. -/
theorem C7_frame_and_idempotence (s : ERISieve) (τ : ℚ) :
    (set_sieve s τ).shell_pair_values_ = s.shell_pair_values_ ∧
    (set_sieve s τ).function_pair_values_ = s.function_pair_values_ ∧
    (set_sieve s τ).shell_pair_exchange_values_ = s.shell_pair_exchange_values_ ∧
    (set_sieve s τ).function_sqrt_ = s.function_sqrt_ ∧
    (set_sieve s τ).max_ = s.max_ ∧
    (set_sieve s τ).nshell_ = s.nshell_ ∧
    (set_sieve s τ).nbf_ = s.nbf_ ∧
    set_sieve (set_sieve s τ) τ = set_sieve s τ :=
  ⟨rfl, rfl, rfl, rfl, rfl, rfl, rfl, rfl⟩

/-- C8: the claim asks for an explicit failure when max_ = 0, but set_sieve
returns normally on such a state and forms the normalized cutoffs by plain
division.  In IEEE arithmetic the division produces Inf or NaN, which flows
silently into every significance comparison; in this exact-arithmetic model
division by zero yields 0, so the cutoff degenerates to 0 and every
canonical pair is (junk) significant.  Either way there is no explicit
failure path. -/
theorem C8_no_explicit_failure :
    zeroSieve.max_ = 0 ∧
    (set_sieve zeroSieve 1).sieve_over_max_ = 1 / zeroSieve.max_ ∧
    (set_sieve zeroSieve 1).sieve2_over_max_ = 1 * 1 / zeroSieve.max_ ∧
    (set_sieve zeroSieve 1).sieve2_over_max_ = 0 ∧
    (set_sieve zeroSieve 1).shell_pairs_ = [(0, 0)] := by
  refine ⟨rfl, rfl, rfl, ?_, ?_⟩ <;> with_unfolding_all decide

/-! ### Lemmas on the contiguous function-block layout of the basis -/

theorem offsetOf_cons_succ (c : ℕ) (cs : List ℕ) (P : ℕ) :
    offsetOf (c :: cs) (P + 1) = c + offsetOf cs P := by
  simp [offsetOf]

theorem shellOf_block : ∀ (basis : List ℕ) (P p : ℕ), P < basis.length →
    p < basis.getD P 0 → shellOf basis (offsetOf basis P + p) = P := by
  intro basis
  induction basis with
  | nil => intro P p hP; exact absurd hP (by simp)
  | cons c cs ih =>
    intro P p hP hp
    match P with
    | 0 =>
      have h1 : offsetOf (c :: cs) 0 + p = p := by simp [offsetOf]
      rw [h1, shellOf, if_pos (by simpa using hp)]
    | P + 1 =>
      rw [offsetOf_cons_succ, Nat.add_assoc]
      simp only [shellOf]
      rw [if_neg (by omega), Nat.add_sub_cancel_left]
      have h3 := ih P p (by simpa using hP) (by simpa using hp)
      omega

theorem offsetOf_add_lt_sum : ∀ (basis : List ℕ) (P p : ℕ), P < basis.length →
    p < basis.getD P 0 → offsetOf basis P + p < basis.sum := by
  intro basis
  induction basis with
  | nil => intro P p hP; exact absurd hP (by simp)
  | cons c cs ih =>
    intro P p hP hp
    match P with
    | 0 =>
      have h1 : offsetOf (c :: cs) 0 = 0 := by simp [offsetOf]
      simp only [h1, List.sum_cons]
      have h2 : p < c := by simpa using hp
      omega
    | P + 1 =>
      rw [offsetOf_cons_succ, List.sum_cons, Nat.add_assoc]
      have h3 := ih P p (by simpa using hP) (by simpa using hp)
      omega

theorem shellOf_spec : ∀ (basis : List ℕ) (f : ℕ), f < basis.sum →
    shellOf basis f < basis.length ∧ offsetOf basis (shellOf basis f) ≤ f ∧
      f < offsetOf basis (shellOf basis f) + basis.getD (shellOf basis f) 0 := by
  intro basis
  induction basis with
  | nil => intro f hf; simp at hf
  | cons c cs ih =>
    intro f hf
    by_cases h1 : f < c
    · simp only [shellOf, if_pos h1]
      refine ⟨by simp, ?_, ?_⟩
      · simp [offsetOf]
      · simpa [offsetOf] using h1
    · simp only [shellOf, if_neg h1]
      have h2 : f - c < cs.sum := by simp only [List.sum_cons] at hf; omega
      obtain ⟨ha, hb, hc⟩ := ih (f - c) h2
      refine ⟨by simpa using ha, ?_, ?_⟩
      · rw [offsetOf_cons_succ]; omega
      · rw [offsetOf_cons_succ]
        have h4 : (c :: cs).getD (shellOf cs (f - c) + 1) 0 = cs.getD (shellOf cs (f - c)) 0 := by
          simp
        omega

theorem shellOf_mono : ∀ (basis : List ℕ) (q p : ℕ), q ≤ p →
    shellOf basis q ≤ shellOf basis p := by
  intro basis
  induction basis with
  | nil => intro q p h; simp [shellOf]
  | cons c cs ih =>
    intro q p h
    by_cases h1 : q < c
    · simp only [shellOf, if_pos h1]
      omega
    · have h2 : ¬ p < c := by omega
      simp only [shellOf, if_neg h1, if_neg h2]
      have h3 := ih (q - c) (p - c) (by omega)
      omega

theorem flatIdx_inj {n r c r2 c2 : ℕ} (hc : c < n) (hc2 : c2 < n)
    (h : r * n + c = r2 * n + c2) : r = r2 ∧ c = c2 := by
  have hn : 0 < n := by omega
  have e1 : (r * n + c) / n = r := by
    rw [Nat.mul_comm r n, Nat.mul_add_div hn, Nat.div_eq_of_lt hc, Nat.add_zero]
  have e2 : (r2 * n + c2) / n = r2 := by
    rw [Nat.mul_comm r2 n, Nat.mul_add_div hn, Nat.div_eq_of_lt hc2, Nat.add_zero]
  have m1 : (r * n + c) % n = c := by
    rw [Nat.mul_comm r n, Nat.mul_add_mod, Nat.mod_eq_of_lt hc]
  have m2 : (r2 * n + c2) % n = c2 := by
    rw [Nat.mul_comm r2 n, Nat.mul_add_mod, Nat.mod_eq_of_lt hc2]
  constructor
  · rw [← e1, h, e2]
  · rw [← m1, h, m2]

theorem le_foldl_max : ∀ (l : List ℚ) (a : ℚ), a ≤ l.foldl max a := by
  intro l
  induction l with
  | nil => intro a; exact le_rfl
  | cons x l ih =>
    intro a
    exact le_trans (le_max_left a x) (ih (max a x))

theorem schwarzBM_nonneg (basis : List ℕ) (buf : Buffer) (P Q : ℕ) :
    0 ≤ schwarzBM basis buf P Q :=
  le_foldl_max _ 0

theorem mem_blockPairs {nP nQ p q : ℕ} : (p, q) ∈ blockPairs nP nQ ↔ p < nP ∧ q < nQ := by
  simp only [blockPairs, List.mem_flatMap, List.mem_map, List.mem_range, Prod.mk.injEq]
  constructor
  · rintro ⟨a, ha, b, hb, rfl, rfl⟩
    exact ⟨ha, hb⟩
  · rintro ⟨hp, hq⟩
    exact ⟨p, hp, q, hq, rfl, rfl⟩

theorem writeSym_apply (a b : ℕ × ℕ → ℕ) (v : ℚ) :
    ∀ (l : List (ℕ × ℕ)) (F : ℕ → ℚ) (i : ℕ),
      writeSym a b v l F i =
        if ∃ pq ∈ l, a pq = i ∨ b pq = i then v else F i := by
  intro l
  induction l with
  | nil => intro F i; simp [writeSym]
  | cons x xs ih =>
    intro F i
    have hstep : writeSym a b v (x :: xs) F =
        writeSym a b v xs (updateFn (updateFn F (a x) v) (b x) v) := rfl
    rw [hstep, ih]
    by_cases hxs : ∃ pq ∈ xs, a pq = i ∨ b pq = i
    · rw [if_pos hxs, if_pos ⟨hxs.choose, List.mem_cons_of_mem x hxs.choose_spec.1,
        hxs.choose_spec.2⟩]
    · rw [if_neg hxs]
      by_cases hx : a x = i ∨ b x = i
      · rw [if_pos ⟨x, List.mem_cons_self x xs, hx⟩]
        simp only [updateFn]
        rcases hx with hx | hx
        · by_cases hbi : i = b x
          · rw [if_pos hbi]
          · rw [if_neg hbi, if_pos hx.symm]
        · rw [if_pos hx.symm]
      · have hno : ¬ ∃ pq ∈ x :: xs, a pq = i ∨ b pq = i := by
          rintro ⟨pq, hpq, hor⟩
          rcases List.mem_cons.mp hpq with rfl | hmem
          · exact hx hor
          · exact hxs ⟨pq, hmem, hor⟩
        rw [if_neg hno]
        simp only [updateFn]
        rw [if_neg (fun h => hx (Or.inr h.symm)), if_neg (fun h => hx (Or.inl h.symm))]

theorem writeRange_apply (o : ℕ) (w : ℕ → ℚ) :
    ∀ (k : ℕ) (g : ℕ → ℚ) (i : ℕ),
      ((List.range k).foldl (fun g p => updateFn g (o + p) (w p)) g) i =
        if ∃ p, p < k ∧ i = o + p then w (i - o) else g i := by
  intro k
  induction k with
  | zero => intro g i; simp
  | succ k ih =>
    intro g i
    rw [List.range_succ, List.foldl_append, List.foldl_cons, List.foldl_nil]
    by_cases hik : i = o + k
    · have hex : ∃ p, p < k + 1 ∧ i = o + p := ⟨k, by omega, hik⟩
      rw [if_pos hex]
      simp only [updateFn]
      rw [if_pos hik]
      congr 1
      omega
    · simp only [updateFn]
      rw [if_neg hik, ih]
      by_cases hex : ∃ p, p < k ∧ i = o + p
      · rw [if_pos hex, if_pos ⟨hex.choose, by omega, hex.choose_spec.2⟩]
      · rw [if_neg hex, if_neg ?_]
        rintro ⟨p, hp, rfl⟩
        rcases Nat.lt_or_ge p k with h | h
        · exact hex ⟨p, h, rfl⟩
        · exact hik (by omega)

theorem row_shell_eq (basis : List ℕ) {P P2 p p2 : ℕ} (hP : P < basis.length)
    (hP2 : P2 < basis.length) (hp : p < basis.getD P 0) (hp2 : p2 < basis.getD P2 0)
    (h : p + offsetOf basis P = p2 + offsetOf basis P2) : P = P2 := by
  have h1 := shellOf_block basis P p hP hp
  have h2 := shellOf_block basis P2 p2 hP2 hp2
  rw [Nat.add_comm (offsetOf basis P) p] at h1
  rw [Nat.add_comm (offsetOf basis P2) p2] at h2
  rw [← h1, ← h2, h]

theorem colIdx_lt (basis : List ℕ) {Q q : ℕ} (hQ : Q < basis.length)
    (hq : q < basis.getD Q 0) : q + offsetOf basis Q < basis.sum := by
  rw [Nat.add_comm]
  exact offsetOf_add_lt_sum basis Q q hQ hq

/-! ### The integrals fold invariant -/

/-- State of the integrals double loop after a prefix of the traversal. -/
def integralsFold (basis : List ℕ) (buf : Buffer) (L : List (ℕ × ℕ)) :
    (ℕ → ℚ) × (ℕ → ℚ) × ℚ :=
  L.foldl (integralsStep basis buf basis.length basis.sum) ((fun _ => 0), (fun _ => 0), 0)

theorem updateFn_apply (f : ℕ → ℚ) (i : ℕ) (v : ℚ) (j : ℕ) :
    updateFn f i v j = if j = i then v else f j := rfl

theorem integralsStep_fst (basis : List ℕ) (buf : Buffer) (n nbf : ℕ)
    (st : (ℕ → ℚ) × (ℕ → ℚ) × ℚ) (x : ℕ × ℕ) :
    (integralsStep basis buf n nbf st x).1 =
      updateFn (updateFn st.1 (x.1 * n + x.2) (schwarzBM basis buf x.1 x.2))
        (x.2 * n + x.1) (schwarzBM basis buf x.1 x.2) := rfl

theorem integralsStep_snd_fst (basis : List ℕ) (buf : Buffer) (n nbf : ℕ)
    (st : (ℕ → ℚ) × (ℕ → ℚ) × ℚ) (x : ℕ × ℕ) :
    (integralsStep basis buf n nbf st x).2.1 =
      writeSym (fun pq => (pq.1 + offsetOf basis x.1) * nbf + (pq.2 + offsetOf basis x.2))
        (fun pq => (pq.2 + offsetOf basis x.2) * nbf + (pq.1 + offsetOf basis x.1))
        (schwarzBM basis buf x.1 x.2)
        (blockPairs (basis.getD x.1 0) (basis.getD x.2 0)) st.2.1 := rfl

theorem integralsStep_snd_snd (basis : List ℕ) (buf : Buffer) (n nbf : ℕ)
    (st : (ℕ → ℚ) × (ℕ → ℚ) × ℚ) (x : ℕ × ℕ) :
    (integralsStep basis buf n nbf st x).2.2 =
      max st.2.2 (schwarzBM basis buf x.1 x.2) := rfl

theorem integralsFold_spec (basis : List ℕ) (buf : Buffer) :
    ∀ L : List (ℕ × ℕ), (∀ pq ∈ L, pq.2 ≤ pq.1 ∧ pq.1 < basis.length) →
      0 ≤ (integralsFold basis buf L).2.2 ∧
      (∀ i, 0 ≤ (integralsFold basis buf L).1 i ∧
        (integralsFold basis buf L).1 i ≤ (integralsFold basis buf L).2.2) ∧
      (∀ pq ∈ L,
        (integralsFold basis buf L).1 (pq.1 * basis.length + pq.2) =
          schwarzBM basis buf pq.1 pq.2 ∧
        (integralsFold basis buf L).1 (pq.2 * basis.length + pq.1) =
          schwarzBM basis buf pq.1 pq.2) ∧
      (∀ pq ∈ L, ∀ p q : ℕ, p < basis.getD pq.1 0 → q < basis.getD pq.2 0 →
        (integralsFold basis buf L).2.1
          ((p + offsetOf basis pq.1) * basis.sum + (q + offsetOf basis pq.2)) =
          schwarzBM basis buf pq.1 pq.2 ∧
        (integralsFold basis buf L).2.1
          ((q + offsetOf basis pq.2) * basis.sum + (p + offsetOf basis pq.1)) =
          schwarzBM basis buf pq.1 pq.2) := by
  intro L
  induction L using List.reverseRecOn with
  | nil =>
    intro hL
    refine ⟨le_rfl, fun i => ⟨le_rfl, le_rfl⟩, by simp, by simp⟩
  | append_singleton L x ihL =>
    intro hL
    have hLonly : ∀ pq ∈ L, pq.2 ≤ pq.1 ∧ pq.1 < basis.length := by
      intro pq hpq; exact hL pq (List.mem_append_left _ hpq)
    have hx : x.2 ≤ x.1 ∧ x.1 < basis.length :=
      hL x (List.mem_append_right _ (List.mem_singleton_self x))
    obtain ⟨ih0, ih1, ih2, ih3⟩ := ihL hLonly
    have hfold : integralsFold basis buf (L ++ [x]) =
        integralsStep basis buf basis.length basis.sum (integralsFold basis buf L) x := by
      simp [integralsFold]
    set old := integralsFold basis buf L with hold
    set n := basis.length with hn
    set nbf := basis.sum with hnbf
    set v := schwarzBM basis buf x.1 x.2 with hv
    have hv0 : 0 ≤ v := schwarzBM_nonneg basis buf x.1 x.2
    have hDnew : ∀ i, (integralsFold basis buf (L ++ [x])).1 i =
        if i = x.2 * n + x.1 then v else if i = x.1 * n + x.2 then v else old.1 i := by
      intro i
      rw [hfold, integralsStep_fst, updateFn_apply, updateFn_apply]
    have hFnew : ∀ i, (integralsFold basis buf (L ++ [x])).2.1 i =
        if ∃ pq ∈ blockPairs (basis.getD x.1 0) (basis.getD x.2 0),
            (pq.1 + offsetOf basis x.1) * nbf + (pq.2 + offsetOf basis x.2) = i ∨
            (pq.2 + offsetOf basis x.2) * nbf + (pq.1 + offsetOf basis x.1) = i
          then v else old.2.1 i := by
      intro i
      rw [hfold, integralsStep_snd_fst, writeSym_apply]
    have hMnew : (integralsFold basis buf (L ++ [x])).2.2 = max old.2.2 v := by
      rw [hfold, integralsStep_snd_snd]
    refine ⟨?_, ?_, ?_, ?_⟩
    · rw [hMnew]; exact le_trans ih0 (le_max_left _ _)
    · intro i
      rw [hDnew i, hMnew]
      by_cases h1 : i = x.2 * n + x.1
      · rw [if_pos h1]; exact ⟨hv0, le_max_right _ _⟩
      · rw [if_neg h1]
        by_cases h2 : i = x.1 * n + x.2
        · rw [if_pos h2]; exact ⟨hv0, le_max_right _ _⟩
        · rw [if_neg h2]
          exact ⟨(ih1 i).1, le_trans (ih1 i).2 (le_max_left _ _)⟩
    · intro pq hpq
      rcases List.mem_append.mp hpq with hmem | hmem
      · obtain ⟨hc1, hc2⟩ := hLonly pq hmem
        obtain ⟨hx1, hx2⟩ := hx
        constructor
        · rw [hDnew]
          by_cases h1 : pq.1 * n + pq.2 = x.2 * n + x.1
          · obtain ⟨e1, e2⟩ := flatIdx_inj (by omega) (by omega) h1
            rw [if_pos h1]
            have hpp : pq.1 = pq.2 := by omega
            have hxx : x.1 = x.2 := by omega
            rw [hv]
            congr 1 <;> omega
          · rw [if_neg h1]
            by_cases h2 : pq.1 * n + pq.2 = x.1 * n + x.2
            · obtain ⟨e1, e2⟩ := flatIdx_inj (by omega) (by omega) h2
              rw [if_pos h2, hv]
              congr 1 <;> omega
            · rw [if_neg h2]
              exact (ih2 pq hmem).1
        · rw [hDnew]
          by_cases h1 : pq.2 * n + pq.1 = x.2 * n + x.1
          · obtain ⟨e1, e2⟩ := flatIdx_inj (by omega) (by omega) h1
            rw [if_pos h1, hv]
            congr 1 <;> omega
          · rw [if_neg h1]
            by_cases h2 : pq.2 * n + pq.1 = x.1 * n + x.2
            · obtain ⟨e1, e2⟩ := flatIdx_inj (by omega) (by omega) h2
              rw [if_pos h2, hv]
              congr 1 <;> omega
            · rw [if_neg h2]
              exact (ih2 pq hmem).2
      · rw [List.mem_singleton] at hmem
        subst hmem
        obtain ⟨hx1, hx2⟩ := hx
        constructor
        · rw [hDnew]
          by_cases h1 : pq.1 * n + pq.2 = pq.2 * n + pq.1
          · rw [if_pos h1]
          · rw [if_neg h1, if_pos rfl]
        · rw [hDnew, if_pos rfl]
    · intro pq hpq p q hp hq
      rcases List.mem_append.mp hpq with hmem | hmem
      · obtain ⟨hc1, hc2⟩ := hLonly pq hmem
        obtain ⟨hx1, hx2⟩ := hx
        have hcQ : pq.2 < basis.length := by omega
        have hgood : ∀ p2 q2 : ℕ, p2 < basis.getD x.1 0 → q2 < basis.getD x.2 0 →
            (p2 + offsetOf basis x.1) * nbf + (q2 + offsetOf basis x.2) =
              (p + offsetOf basis pq.1) * nbf + (q + offsetOf basis pq.2) →
            v = schwarzBM basis buf pq.1 pq.2 := by
          intro p2 q2 hp2 hq2 heq
          have hcol1 : q2 + offsetOf basis x.2 < nbf := colIdx_lt basis (by omega) hq2
          have hcol2 : q + offsetOf basis pq.2 < nbf := colIdx_lt basis hcQ hq
          obtain ⟨er, ec⟩ := flatIdx_inj hcol1 hcol2 heq
          have h5 : x.1 = pq.1 := row_shell_eq basis hx2 hc2 hp2 hp er
          have h6 : x.2 = pq.2 := row_shell_eq basis (by omega) hcQ hq2 hq ec
          rw [hv, h5, h6]
        have hcross : ∀ p2 q2 : ℕ, p2 < basis.getD x.1 0 → q2 < basis.getD x.2 0 →
            (q2 + offsetOf basis x.2) * nbf + (p2 + offsetOf basis x.1) =
              (p + offsetOf basis pq.1) * nbf + (q + offsetOf basis pq.2) →
            v = schwarzBM basis buf pq.1 pq.2 := by
          intro p2 q2 hp2 hq2 heq
          have hcol1 : p2 + offsetOf basis x.1 < nbf := colIdx_lt basis hx2 hp2
          have hcol2 : q + offsetOf basis pq.2 < nbf := colIdx_lt basis hcQ hq
          obtain ⟨er, ec⟩ := flatIdx_inj hcol1 hcol2 heq
          have h5 : x.2 = pq.1 := row_shell_eq basis (by omega) hc2 hq2 hp er
          have h6 : x.1 = pq.2 := row_shell_eq basis hx2 hcQ hp2 hq ec
          rw [hv]
          congr 1 <;> omega
        constructor
        · rw [hFnew]
          by_cases hex : ∃ bq ∈ blockPairs (basis.getD x.1 0) (basis.getD x.2 0),
              (bq.1 + offsetOf basis x.1) * nbf + (bq.2 + offsetOf basis x.2) =
                (p + offsetOf basis pq.1) * nbf + (q + offsetOf basis pq.2) ∨
              (bq.2 + offsetOf basis x.2) * nbf + (bq.1 + offsetOf basis x.1) =
                (p + offsetOf basis pq.1) * nbf + (q + offsetOf basis pq.2)
          · rw [if_pos hex]
            obtain ⟨bq, hbq, hor⟩ := hex
            obtain ⟨hb1, hb2⟩ := mem_blockPairs.mp (by
              have : (bq.1, bq.2) = bq := rfl
              rw [this]; exact hbq)
            rcases hor with heq | heq
            · exact hgood bq.1 bq.2 hb1 hb2 heq
            · exact hcross bq.1 bq.2 hb1 hb2 heq
          · rw [if_neg hex]
            exact (ih3 pq hmem p q hp hq).1
        · rw [hFnew]
          by_cases hex : ∃ bq ∈ blockPairs (basis.getD x.1 0) (basis.getD x.2 0),
              (bq.1 + offsetOf basis x.1) * nbf + (bq.2 + offsetOf basis x.2) =
                (q + offsetOf basis pq.2) * nbf + (p + offsetOf basis pq.1) ∨
              (bq.2 + offsetOf basis x.2) * nbf + (bq.1 + offsetOf basis x.1) =
                (q + offsetOf basis pq.2) * nbf + (p + offsetOf basis pq.1)
          · rw [if_pos hex]
            obtain ⟨bq, hbq, hor⟩ := hex
            obtain ⟨hb1, hb2⟩ := mem_blockPairs.mp (by
              have : (bq.1, bq.2) = bq := rfl
              rw [this]; exact hbq)
            have hcolp : p + offsetOf basis pq.1 < nbf := colIdx_lt basis hc2 hp
            rcases hor with heq | heq
            · have hcol1 : bq.2 + offsetOf basis x.2 < nbf := colIdx_lt basis (by omega) hb2
              obtain ⟨er, ec⟩ := flatIdx_inj hcol1 hcolp heq
              have h5 : x.1 = pq.2 := row_shell_eq basis hx2 hcQ hb1 hq er
              have h6 : x.2 = pq.1 := row_shell_eq basis (by omega) hc2 hb2 hp ec
              rw [hv]
              congr 1 <;> omega
            · have hcol1 : bq.1 + offsetOf basis x.1 < nbf := colIdx_lt basis hx2 hb1
              obtain ⟨er, ec⟩ := flatIdx_inj hcol1 hcolp heq
              have h5 : x.2 = pq.2 := row_shell_eq basis (by omega) hcQ hb2 hq er
              have h6 : x.1 = pq.1 := row_shell_eq basis hx2 hc2 hb1 hp ec
              rw [hv, h6, h5]
          · rw [if_neg hex]
            exact (ih3 pq hmem p q hp hq).2
      · rw [List.mem_singleton] at hmem
        subst hmem
        constructor
        · rw [hFnew, if_pos ⟨(p, q), mem_blockPairs.mpr ⟨hp, hq⟩, Or.inl rfl⟩]
        · rw [hFnew, if_pos ⟨(p, q), mem_blockPairs.mpr ⟨hp, hq⟩, Or.inr rfl⟩]

theorem lowerPairs_canonical (n : ℕ) : ∀ pq ∈ lowerPairs n, pq.2 ≤ pq.1 ∧ pq.1 < n := by
  rintro ⟨a, b⟩ h
  have h2 := mem_lowerPairs.mp h
  exact ⟨h2.2, h2.1⟩

theorem mem_csamPairs {n M N : ℕ} : (M, N) ∈ csamPairs n ↔ M < n ∧ N ≤ M := by
  simp only [csamPairs, csamRow, List.mem_flatMap, List.mem_map, List.mem_reverse,
    List.mem_range, Prod.mk.injEq]
  constructor
  · rintro ⟨a, ha, b, hb, rfl, rfl⟩
    omega
  · rintro ⟨hM, hN⟩
    exact ⟨M, hM, N, by omega, rfl, rfl⟩

theorem csamPairs_canonical (n : ℕ) : ∀ pq ∈ csamPairs n, pq.2 ≤ pq.1 ∧ pq.1 < n := by
  rintro ⟨a, b⟩ h
  have h2 := mem_csamPairs.mp h
  exact ⟨h2.2, h2.1⟩

theorem csamStep_snd_exists (basis : List ℕ) (buf : Buffer) (sqrtFn : ℚ → ℚ) (n : ℕ)
    (st : (ℕ → ℚ) × (ℕ → ℚ)) (x : ℕ × ℕ) :
    ∃ w : ℚ, (csamStep basis buf sqrtFn n st x).2 =
      updateFn (updateFn st.2 (x.1 * n + x.2) w) (x.2 * n + x.1) w :=
  ⟨_, rfl⟩

theorem csamFold_X_symm (basis : List ℕ) (buf : Buffer) (sqrtFn : ℚ → ℚ) (n : ℕ) :
    ∀ L : List (ℕ × ℕ), (∀ pq ∈ L, pq.2 ≤ pq.1 ∧ pq.1 < n) →
    ∀ st : (ℕ → ℚ) × (ℕ → ℚ),
      (∀ i j, i < n → j < n → st.2 (i * n + j) = st.2 (j * n + i)) →
    ∀ i j, i < n → j < n →
      (L.foldl (csamStep basis buf sqrtFn n) st).2 (i * n + j) =
      (L.foldl (csamStep basis buf sqrtFn n) st).2 (j * n + i) := by
  intro L
  induction L with
  | nil => intro hL st hst i j hi hj; exact hst i j hi hj
  | cons x xs ih =>
    intro hL st hst i j hi hj
    rw [List.foldl_cons]
    obtain ⟨hx1, hx2⟩ := hL x (List.mem_cons_self x xs)
    refine ih (fun pq h => hL pq (List.mem_cons_of_mem _ h)) _ ?_ i j hi hj
    intro a b ha hb
    obtain ⟨w, hw⟩ := csamStep_snd_exists basis buf sqrtFn n st x
    rw [hw, updateFn_apply, updateFn_apply, updateFn_apply, updateFn_apply]
    by_cases h1 : a * n + b = x.2 * n + x.1
    · obtain ⟨e1, e2⟩ := flatIdx_inj (by omega) (by omega) h1
      rw [if_pos h1]
      by_cases h2 : b * n + a = x.2 * n + x.1
      · rw [if_pos h2]
      · rw [if_neg h2, if_pos (by rw [e2, e1])]
    · rw [if_neg h1]
      by_cases h2 : a * n + b = x.1 * n + x.2
      · obtain ⟨e1, e2⟩ := flatIdx_inj (by omega) (by omega) h2
        rw [if_pos h2]
        by_cases h3 : b * n + a = x.2 * n + x.1
        · rw [if_pos h3]
        · exact absurd (by rw [e2, e1] : b * n + a = x.2 * n + x.1) h3
      · rw [if_neg h2]
        by_cases h3 : b * n + a = x.2 * n + x.1
        · obtain ⟨e1, e2⟩ := flatIdx_inj (by omega) (by omega) h3
          exact absurd (by rw [e2, e1] : a * n + b = x.1 * n + x.2) h2
        · rw [if_neg h3]
          by_cases h4 : b * n + a = x.1 * n + x.2
          · obtain ⟨e1, e2⟩ := flatIdx_inj (by omega) (by omega) h4
            exact absurd (by rw [e2, e1] : a * n + b = x.2 * n + x.1) h1
          · rw [if_neg h4]
            exact hst a b ha hb

theorem integrals_D_props (basis : List ℕ) (buf : Buffer) (P Q : ℕ)
    (hP : P < basis.length) (hQ : Q < basis.length) :
    (integralsFold basis buf (lowerPairs basis.length)).1 (P * basis.length + Q) =
      (integralsFold basis buf (lowerPairs basis.length)).1 (Q * basis.length + P) ∧
    0 ≤ (integralsFold basis buf (lowerPairs basis.length)).1 (P * basis.length + Q) ∧
    (integralsFold basis buf (lowerPairs basis.length)).1 (P * basis.length + Q) ≤
      (integralsFold basis buf (lowerPairs basis.length)).2.2 := by
  obtain ⟨ih0, ih1, ih2, ih3⟩ :=
    integralsFold_spec basis buf (lowerPairs basis.length) (lowerPairs_canonical _)
  refine ⟨?_, (ih1 _).1, (ih1 _).2⟩
  rcases le_or_lt Q P with h | h
  · have hmem : (P, Q) ∈ lowerPairs basis.length := mem_lowerPairs.mpr ⟨hP, h⟩
    have h2 := ih2 (P, Q) hmem
    rw [h2.1, h2.2]
  · have hmem : (Q, P) ∈ lowerPairs basis.length := mem_lowerPairs.mpr ⟨hQ, by omega⟩
    have h2 := ih2 (Q, P) hmem
    rw [h2.1, h2.2]

/-- C6: After construction, the shell-pair bound matrix is symmetric, every
entry satisfies 0 ≤ D[P][Q] ≤ max_, and when CSAM is enabled the exchange
matrix is symmetric. -/
theorem C6_bound_matrix_invariants (basis : List ℕ) (buf : Buffer) (sqrtFn : ℚ → ℚ)
    (dc : Bool) (τ : ℚ) (P Q : ℕ) (hP : P < basis.length) (hQ : Q < basis.length) :
    ((common_init basis buf sqrtFn dc τ).shell_pair_values_ (P * basis.length + Q) =
      (common_init basis buf sqrtFn dc τ).shell_pair_values_ (Q * basis.length + P)) ∧
    0 ≤ (common_init basis buf sqrtFn dc τ).shell_pair_values_ (P * basis.length + Q) ∧
    ((common_init basis buf sqrtFn dc τ).shell_pair_values_ (P * basis.length + Q) ≤
      (common_init basis buf sqrtFn dc τ).max_) ∧
    (dc = true →
      (common_init basis buf sqrtFn dc τ).shell_pair_exchange_values_ (P * basis.length + Q) =
      (common_init basis buf sqrtFn dc τ).shell_pair_exchange_values_ (Q * basis.length + P)) := by
  obtain ⟨hsym, h0, hle⟩ := integrals_D_props basis buf P Q hP hQ
  cases dc with
  | false =>
    exact ⟨hsym, h0, hle, fun h => by cases h⟩
  | true =>
    refine ⟨hsym, h0, hle, fun _ => ?_⟩
    exact csamFold_X_symm basis buf sqrtFn basis.length (csamPairs basis.length)
      (csamPairs_canonical _) ((fun _ => 0), (fun _ => 0)) (fun _ _ _ _ => rfl) P Q hP hQ

/-- C6 witness at the 2-shell toy system with CSAM enabled. -/
theorem C6_witness :
    ((common_init [1, 1] toyBuf id true 2).shell_pair_values_ (0 * 2 + 1) =
      (common_init [1, 1] toyBuf id true 2).shell_pair_values_ (1 * 2 + 0)) ∧
    0 ≤ (common_init [1, 1] toyBuf id true 2).shell_pair_values_ (0 * 2 + 1) ∧
    ((common_init [1, 1] toyBuf id true 2).shell_pair_values_ (0 * 2 + 1) ≤
      (common_init [1, 1] toyBuf id true 2).max_) ∧
    (true = true →
      (common_init [1, 1] toyBuf id true 2).shell_pair_exchange_values_ (0 * 2 + 1) =
      (common_init [1, 1] toyBuf id true 2).shell_pair_exchange_values_ (1 * 2 + 0)) :=
  C6_bound_matrix_invariants [1, 1] toyBuf id true 2 0 1 (by decide) (by decide)

/-- C10: with the contiguous shell-block layout of the basis, a canonical
function pair (p, q) with p ≥ q is in function_pairs_ after set_sieve iff the
canonical shell pair of the containing shells is in shell_pairs_, because the
function-pair bound matrix is block-replicated from the shell-pair bounds and
both passes use the same cutoff. -/
theorem C10_function_pair_mirrors_shell_pair (basis : List ℕ) (buf : Buffer) (τ : ℚ)
    (p q : ℕ) (hq : q ≤ p) (hp : p < basis.sum) :
    ((p, q) ∈ (set_sieve (integrals basis buf initState) τ).function_pairs_ ↔
      (shellOf basis p, shellOf basis q) ∈
        (set_sieve (integrals basis buf initState) τ).shell_pairs_) := by
  obtain ⟨ih0, ih1, ih2, ih3⟩ :=
    integralsFold_spec basis buf (lowerPairs basis.length) (lowerPairs_canonical _)
  have hq' : q < basis.sum := by omega
  obtain ⟨hSp, hop, hcp⟩ := shellOf_spec basis p hp
  obtain ⟨hSq, hoq, hcq⟩ := shellOf_spec basis q hq'
  have hmono : shellOf basis q ≤ shellOf basis p := shellOf_mono basis q p hq
  have hmem : (shellOf basis p, shellOf basis q) ∈ lowerPairs basis.length :=
    mem_lowerPairs.mpr ⟨hSp, hmono⟩
  have hF := (ih3 (shellOf basis p, shellOf basis q) hmem
    (p - offsetOf basis (shellOf basis p)) (q - offsetOf basis (shellOf basis q))
    (show p - offsetOf basis (shellOf basis p) < basis.getD (shellOf basis p) 0 by omega)
    (show q - offsetOf basis (shellOf basis q) < basis.getD (shellOf basis q) 0 by omega)).1
  have hD := (ih2 (shellOf basis p, shellOf basis q) hmem).1
  have hidx1 : p - offsetOf basis (shellOf basis p) + offsetOf basis (shellOf basis p) = p := by
    omega
  have hidx2 : q - offsetOf basis (shellOf basis q) + offsetOf basis (shellOf basis q) = q := by
    omega
  rw [hidx1, hidx2] at hF
  have hFD : (integralsFold basis buf (lowerPairs basis.length)).2.1 (p * basis.sum + q) =
      (integralsFold basis buf (lowerPairs basis.length)).1
        (shellOf basis p * basis.length + shellOf basis q) := by
    rw [hF]
    exact hD.symm
  have hmemL : (p, q) ∈ (set_sieve (integrals basis buf initState) τ).function_pairs_ ↔
      q ≤ p ∧ p < basis.sum ∧
        τ * τ / (integralsFold basis buf (lowerPairs basis.length)).2.2 ≤
          (integralsFold basis buf (lowerPairs basis.length)).2.1 (p * basis.sum + q) :=
    sievePass_mem (τ * τ / (integralsFold basis buf (lowerPairs basis.length)).2.2)
      (fun pq => (integralsFold basis buf (lowerPairs basis.length)).2.1
        (pq.1 * basis.sum + pq.2)) basis.sum p q
  have hmemR : (shellOf basis p, shellOf basis q) ∈
        (set_sieve (integrals basis buf initState) τ).shell_pairs_ ↔
      shellOf basis q ≤ shellOf basis p ∧ shellOf basis p < basis.length ∧
        τ * τ / (integralsFold basis buf (lowerPairs basis.length)).2.2 ≤
          (integralsFold basis buf (lowerPairs basis.length)).1
            (shellOf basis p * basis.length + shellOf basis q) :=
    sievePass_mem (τ * τ / (integralsFold basis buf (lowerPairs basis.length)).2.2)
      (fun pq => (integralsFold basis buf (lowerPairs basis.length)).1
        (pq.1 * basis.length + pq.2)) basis.length (shellOf basis p) (shellOf basis q)
  rw [hmemL, hmemR]
  constructor
  · rintro ⟨h1, h2, h3⟩
    refine ⟨hmono, hSp, ?_⟩
    rw [← hFD]
    exact h3
  · rintro ⟨h1, h2, h3⟩
    refine ⟨hq, hp, ?_⟩
    rw [hFD]
    exact h3

/-- C10 witness at the 2-shell toy system: function pair (1, 0) mirrors
shell pair (1, 0). -/
theorem C10_witness :
    ((1, 0) ∈ (set_sieve (integrals [1, 1] toyBuf initState) 2).function_pairs_ ↔
      (shellOf [1, 1] 1, shellOf [1, 1] 0) ∈
        (set_sieve (integrals [1, 1] toyBuf initState) 2).shell_pairs_) :=
  C10_function_pair_mirrors_shell_pair [1, 1] toyBuf 2 1 0 (by decide) (by decide)

/-- A one-shell state with constant bound matrices and a symmetric constant
exchange matrix, used to instantiate the csam predicate. -/
def constSieve : ERISieve :=
  { initState with
    nshell_ := 1
    shell_pair_values_ := fun _ => 2
    shell_pair_exchange_values_ := fun _ => 1
    max_ := 2 }

/-- C5: shell_significant_csam(M, N, R, S) on a state with a symmetric
exchange matrix returns true iff
|D[N][M] * D[S][R] * max(X[M][R] * X[N][S], X[M][S] * X[N][R])| ≥ τ², where
τ is the current threshold installed by set_sieve. -/
theorem C5_csam_predicate (s : ERISieve) (τ : ℚ) (M N R S : ℕ)
    (hM : M < s.nshell_) (hN : N < s.nshell_) (hR : R < s.nshell_) (hS : S < s.nshell_)
    (hX : ∀ i j, i < s.nshell_ → j < s.nshell_ →
      s.shell_pair_exchange_values_ (i * s.nshell_ + j) =
        s.shell_pair_exchange_values_ (j * s.nshell_ + i)) :
    (shell_significant_csam (set_sieve s τ) M N R S = true ↔
      τ * τ ≤ |s.shell_pair_values_ (N * s.nshell_ + M) *
        s.shell_pair_values_ (S * s.nshell_ + R) *
        max (s.shell_pair_exchange_values_ (M * s.nshell_ + R) *
             s.shell_pair_exchange_values_ (N * s.nshell_ + S))
            (s.shell_pair_exchange_values_ (M * s.nshell_ + S) *
             s.shell_pair_exchange_values_ (N * s.nshell_ + R))|) := by
  have hbool : shell_significant_csam (set_sieve s τ) M N R S =
      decide (τ * τ ≤ |s.shell_pair_values_ (N * s.nshell_ + M) *
        s.shell_pair_values_ (S * s.nshell_ + R) *
        max (s.shell_pair_exchange_values_ (R * s.nshell_ + M) *
             s.shell_pair_exchange_values_ (S * s.nshell_ + N))
            (s.shell_pair_exchange_values_ (S * s.nshell_ + M) *
             s.shell_pair_exchange_values_ (R * s.nshell_ + N))|) := rfl
  rw [hbool, decide_eq_true_iff, hX R M hR hM, hX S N hS hN, hX S M hS hM, hX R N hR hN]

/-! ### The csam traversal invariant: diagonal square roots are populated
before every read, and each is written exactly once -/

/-- The strictly descending tail of a csam row: (m, j-1), ..., (m, 0). -/
def tailList (m j : ℕ) : List (ℕ × ℕ) :=
  ((List.range j).reverse).map (fun Q => (m, Q))

theorem tailList_succ (m j : ℕ) : tailList m (j + 1) = (m, j) :: tailList m j := by
  simp [tailList, List.range_succ]

theorem csamRow_eq (m : ℕ) : csamRow m = (m, m) :: tailList m m := by
  simp [csamRow, tailList, List.range_succ]

theorem csamPairs_succ (m : ℕ) : csamPairs (m + 1) = csamPairs m ++ csamRow m := by
  simp [csamPairs, List.range_succ]

theorem csamStep_fst_of_ne (basis : List ℕ) (buf : Buffer) (sqrtFn : ℚ → ℚ) (n : ℕ)
    (st : (ℕ → ℚ) × (ℕ → ℚ)) (P Q : ℕ) (h : Q ≠ P) :
    (csamStep basis buf sqrtFn n st (P, Q)).1 = st.1 := by
  simp [csamStep, h]

theorem csamStep_fst_diag (basis : List ℕ) (buf : Buffer) (sqrtFn : ℚ → ℚ) (n m : ℕ)
    (st : (ℕ → ℚ) × (ℕ → ℚ)) :
    (csamStep basis buf sqrtFn n st (m, m)).1 =
      (List.range (basis.getD m 0)).foldl
        (fun g p => updateFn g (offsetOf basis m + p)
          (sqrtFn |buf (m, m, m, m) (diagIdx (basis.getD m 0) p)|)) st.1 := by
  simp [csamStep]

theorem csamStep_snd_eq (basis : List ℕ) (buf : Buffer) (sqrtFn : ℚ → ℚ) (n : ℕ)
    (st : (ℕ → ℚ) × (ℕ → ℚ)) (P Q : ℕ) :
    (csamStep basis buf sqrtFn n st (P, Q)).2 =
      updateFn (updateFn st.2 (P * n + Q)
          (csamVal basis buf P Q ((csamStep basis buf sqrtFn n st (P, Q)).1)))
        (Q * n + P)
        (csamVal basis buf P Q ((csamStep basis buf sqrtFn n st (P, Q)).1)) := rfl

theorem csamVal_congr (basis : List ℕ) (buf : Buffer) (P Q : ℕ) {f g : ℕ → ℚ}
    (hP : ∀ p, p < basis.getD P 0 → f (p + offsetOf basis P) = g (p + offsetOf basis P))
    (hQ : ∀ q, q < basis.getD Q 0 → f (q + offsetOf basis Q) = g (q + offsetOf basis Q)) :
    csamVal basis buf P Q f = csamVal basis buf P Q g := by
  unfold csamVal
  congr 1
  apply List.map_congr_left
  rintro ⟨p, q⟩ hmem
  obtain ⟨hp, hq⟩ := mem_blockPairs.mp hmem
  rw [hP p hp, hQ q hq]

theorem csam_inner (basis : List ℕ) (buf : Buffer) (sqrtFn : ℚ → ℚ) (N m : ℕ)
    (hmN : m < N) (hml : m < basis.length) :
    ∀ j, j ≤ m → ∀ st : (ℕ → ℚ) × (ℕ → ℚ),
      (∀ f, f < basis.sum → shellOf basis f ≤ m → st.1 f = finalSqrt basis buf sqrtFn f) →
      ((tailList m j).foldl (csamStep basis buf sqrtFn N) st).1 = st.1 ∧
      (∀ i : ℕ, (∀ Q, Q < j → i ≠ m * N + Q ∧ i ≠ Q * N + m) →
        ((tailList m j).foldl (csamStep basis buf sqrtFn N) st).2 i = st.2 i) ∧
      (∀ Q, Q < j →
        ((tailList m j).foldl (csamStep basis buf sqrtFn N) st).2 (m * N + Q) =
          csamXPure basis buf sqrtFn m Q ∧
        ((tailList m j).foldl (csamStep basis buf sqrtFn N) st).2 (Q * N + m) =
          csamXPure basis buf sqrtFn m Q) := by
  intro j
  induction j with
  | zero =>
    intro hj st ha
    exact ⟨rfl, fun i _ => rfl, fun Q hQ => absurd hQ (by omega)⟩
  | succ j ih =>
    intro hj st ha
    rw [tailList_succ, List.foldl_cons]
    have hjm : j < m := by omega
    have h1 : (csamStep basis buf sqrtFn N st (m, j)).1 = st.1 :=
      csamStep_fst_of_ne basis buf sqrtFn N st m j (by omega)
    have hV : csamVal basis buf m j ((csamStep basis buf sqrtFn N st (m, j)).1) =
        csamXPure basis buf sqrtFn m j := by
      rw [h1]
      unfold csamXPure
      apply csamVal_congr
      · intro p hp
        exact ha _ (colIdx_lt basis hml hp)
          (by rw [Nat.add_comm, shellOf_block basis m p hml hp])
      · intro q hq
        refine ha _ (colIdx_lt basis (by omega) hq) ?_
        rw [Nat.add_comm, shellOf_block basis j q (by omega) hq]
        omega
    have h2 : (csamStep basis buf sqrtFn N st (m, j)).2 =
        updateFn (updateFn st.2 (m * N + j) (csamXPure basis buf sqrtFn m j))
          (j * N + m) (csamXPure basis buf sqrtFn m j) := by
      rw [csamStep_snd_eq, hV]
    have ha1 : ∀ f, f < basis.sum → shellOf basis f ≤ m →
        (csamStep basis buf sqrtFn N st (m, j)).1 f = finalSqrt basis buf sqrtFn f := by
      intro f hf hs
      rw [h1]
      exact ha f hf hs
    obtain ⟨g1, g2, g3⟩ := ih (by omega) (csamStep basis buf sqrtFn N st (m, j)) ha1
    refine ⟨by rw [g1, h1], ?_, ?_⟩
    · intro i hi
      have hfr := g2 i (fun Q hQ => hi Q (by omega))
      obtain ⟨hi1, hi2⟩ := hi j (by omega)
      rw [hfr, h2, updateFn_apply, updateFn_apply, if_neg hi2, if_neg hi1]
    · intro Q hQ
      rcases Nat.lt_or_ge Q j with hQj | hQj
      · exact g3 Q hQj
      · have hQeq : Q = j := by omega
        subst hQeq
        constructor
        · have hframe : ∀ Q2, Q2 < Q → m * N + Q ≠ m * N + Q2 ∧ m * N + Q ≠ Q2 * N + m := by
            intro Q2 hQ2
            constructor
            · intro hcon; omega
            · intro hcon
              obtain ⟨e1, e2⟩ := flatIdx_inj (by omega) (by omega) hcon
              omega
          have hneq : m * N + Q ≠ Q * N + m := by
            intro hcon
            obtain ⟨e1, e2⟩ := flatIdx_inj (by omega) (by omega) hcon
            omega
          rw [g2 _ hframe, h2, updateFn_apply, updateFn_apply, if_neg hneq, if_pos rfl]
        · have hframe : ∀ Q2, Q2 < Q → Q * N + m ≠ m * N + Q2 ∧ Q * N + m ≠ Q2 * N + m := by
            intro Q2 hQ2
            constructor
            · intro hcon
              obtain ⟨e1, e2⟩ := flatIdx_inj (by omega) (by omega) hcon
              omega
            · intro hcon
              obtain ⟨e1, e2⟩ := flatIdx_inj (by omega) (by omega) hcon
              omega
          rw [g2 _ hframe, h2, updateFn_apply, if_pos rfl]

theorem csam_outer (basis : List ℕ) (buf : Buffer) (sqrtFn : ℚ → ℚ) :
    ∀ m, m ≤ basis.length →
      (∀ f, f < basis.sum → shellOf basis f < m →
        ((csamPairs m).foldl (csamStep basis buf sqrtFn basis.length)
          ((fun _ => 0), (fun _ => 0))).1 f = finalSqrt basis buf sqrtFn f) ∧
      (∀ P Q, Q ≤ P → P < m →
        ((csamPairs m).foldl (csamStep basis buf sqrtFn basis.length)
          ((fun _ => 0), (fun _ => 0))).2 (P * basis.length + Q) =
            csamXPure basis buf sqrtFn P Q ∧
        ((csamPairs m).foldl (csamStep basis buf sqrtFn basis.length)
          ((fun _ => 0), (fun _ => 0))).2 (Q * basis.length + P) =
            csamXPure basis buf sqrtFn P Q) := by
  intro m
  induction m with
  | zero =>
    intro hm
    exact ⟨fun f hf hs => absurd hs (by omega), fun P Q hQ hP => absurd hP (by omega)⟩
  | succ m ih =>
    intro hm
    have hmN : m < basis.length := by omega
    obtain ⟨ihA, ihB⟩ := ih (by omega)
    rw [csamPairs_succ, List.foldl_append, csamRow_eq, List.foldl_cons]
    have hsq : ∀ f, f < basis.sum → shellOf basis f ≤ m →
        (csamStep basis buf sqrtFn basis.length
          ((csamPairs m).foldl (csamStep basis buf sqrtFn basis.length)
            ((fun _ => 0), (fun _ => 0))) (m, m)).1 f = finalSqrt basis buf sqrtFn f := by
      intro f hf hs
      rw [csamStep_fst_diag, writeRange_apply]
      by_cases hex : ∃ p, p < basis.getD m 0 ∧ f = offsetOf basis m + p
      · rw [if_pos hex]
        obtain ⟨p, hp, rfl⟩ := hex
        have hS : shellOf basis (offsetOf basis m + p) = m := shellOf_block basis m p hmN hp
        simp only [finalSqrt, hS]
      · rw [if_neg hex]
        rcases Nat.lt_or_ge (shellOf basis f) m with h | h
        · exact ihA f hf h
        · have hSm : shellOf basis f = m := by omega
          obtain ⟨hA, hB, hC⟩ := shellOf_spec basis f hf
          rw [hSm] at hB hC
          exact absurd ⟨f - offsetOf basis m, by omega, by omega⟩ hex
    have hV1 : csamVal basis buf m m
        ((csamStep basis buf sqrtFn basis.length
          ((csamPairs m).foldl (csamStep basis buf sqrtFn basis.length)
            ((fun _ => 0), (fun _ => 0))) (m, m)).1) =
        csamXPure basis buf sqrtFn m m := by
      unfold csamXPure
      apply csamVal_congr <;> intro p hp <;>
        exact hsq _ (colIdx_lt basis hmN hp)
          (by rw [Nat.add_comm, shellOf_block basis m p hmN hp])
    have hX1 : (csamStep basis buf sqrtFn basis.length
        ((csamPairs m).foldl (csamStep basis buf sqrtFn basis.length)
          ((fun _ => 0), (fun _ => 0))) (m, m)).2 (m * basis.length + m) =
        csamXPure basis buf sqrtFn m m := by
      rw [csamStep_snd_eq, hV1, updateFn_apply, if_pos rfl]
    have hfr1 : ∀ i, i ≠ m * basis.length + m →
        (csamStep basis buf sqrtFn basis.length
          ((csamPairs m).foldl (csamStep basis buf sqrtFn basis.length)
            ((fun _ => 0), (fun _ => 0))) (m, m)).2 i =
        ((csamPairs m).foldl (csamStep basis buf sqrtFn basis.length)
          ((fun _ => 0), (fun _ => 0))).2 i := by
      intro i hi
      rw [csamStep_snd_eq, updateFn_apply, updateFn_apply, if_neg hi, if_neg hi]
    obtain ⟨g1, g2, g3⟩ := csam_inner basis buf sqrtFn basis.length m hmN hmN m le_rfl
      (csamStep basis buf sqrtFn basis.length
        ((csamPairs m).foldl (csamStep basis buf sqrtFn basis.length)
          ((fun _ => 0), (fun _ => 0))) (m, m)) hsq
    constructor
    · intro f hf hs
      rw [g1]
      exact hsq f hf (by omega)
    · intro P Q hQP hP
      rcases Nat.lt_or_ge P m with hPm | hPm
      · have hfrA : ∀ Q2, Q2 < m →
            P * basis.length + Q ≠ m * basis.length + Q2 ∧
            P * basis.length + Q ≠ Q2 * basis.length + m := by
          intro Q2 hQ2
          constructor
          · intro hcon
            obtain ⟨e1, e2⟩ := flatIdx_inj (by omega) (by omega) hcon
            omega
          · intro hcon
            obtain ⟨e1, e2⟩ := flatIdx_inj (by omega) (by omega) hcon
            omega
        have hfrB : ∀ Q2, Q2 < m →
            Q * basis.length + P ≠ m * basis.length + Q2 ∧
            Q * basis.length + P ≠ Q2 * basis.length + m := by
          intro Q2 hQ2
          constructor
          · intro hcon
            obtain ⟨e1, e2⟩ := flatIdx_inj (by omega) (by omega) hcon
            omega
          · intro hcon
            obtain ⟨e1, e2⟩ := flatIdx_inj (by omega) (by omega) hcon
            omega
        have hdA : P * basis.length + Q ≠ m * basis.length + m := by
          intro hcon
          obtain ⟨e1, e2⟩ := flatIdx_inj (by omega) (by omega) hcon
          omega
        have hdB : Q * basis.length + P ≠ m * basis.length + m := by
          intro hcon
          obtain ⟨e1, e2⟩ := flatIdx_inj (by omega) (by omega) hcon
          omega
        constructor
        · rw [g2 _ hfrA, hfr1 _ hdA]
          exact (ihB P Q hQP hPm).1
        · rw [g2 _ hfrB, hfr1 _ hdB]
          exact (ihB P Q hQP hPm).2
      · have hPeq : P = m := by omega
        subst hPeq
        rcases Nat.lt_or_ge Q P with hQm | hQm
        · exact g3 Q hQm
        · have hQeq : Q = P := by omega
          subst hQeq
          have hframe : ∀ Q2, Q2 < Q →
              Q * basis.length + Q ≠ Q * basis.length + Q2 ∧
              Q * basis.length + Q ≠ Q2 * basis.length + Q := by
            intro Q2 hQ2
            constructor
            · intro hcon; omega
            · intro hcon
              obtain ⟨e1, e2⟩ := flatIdx_inj (by omega) (by omega) hcon
              omega
          exact ⟨by rw [g2 _ hframe]; exact hX1, by rw [g2 _ hframe]; exact hX1⟩

theorem inBlock_iff (basis : List ℕ) {P f : ℕ} (hP : P < basis.length)
    (hf : f < basis.sum) :
    (offsetOf basis P ≤ f ∧ f < offsetOf basis P + basis.getD P 0) ↔
      P = shellOf basis f := by
  constructor
  · rintro ⟨h1, h2⟩
    have h3 := shellOf_block basis P (f - offsetOf basis P) hP (by omega)
    rw [show offsetOf basis P + (f - offsetOf basis P) = f by omega] at h3
    exact h3.symm
  · rintro rfl
    have h3 := shellOf_spec basis f hf
    exact ⟨h3.2.1, h3.2.2⟩

theorem countP_range_eq (P n : ℕ) :
    (List.range n).countP (fun Q => decide (Q = P)) = if P < n then 1 else 0 := by
  induction n with
  | zero => simp
  | succ n ih =>
    rw [List.range_succ, List.countP_append, ih]
    have hsing : (List.countP (fun Q => decide (Q = P)) [n]) = if n = P then 1 else 0 := by
      by_cases h2 : n = P <;> simp [List.countP_cons, h2]
    rw [hsing]
    by_cases h1 : P < n
    · rw [if_pos h1, if_neg (by omega), if_pos (by omega)]
    · rw [if_neg h1]
      by_cases h2 : n = P
      · rw [if_pos h2, if_pos (by omega)]
      · rw [if_neg h2, if_neg (by omega)]

theorem sum_map_ite_range (n S : ℕ) :
    ((List.range n).map (fun P => if P = S then (1 : ℕ) else 0)).sum =
      if S < n then 1 else 0 := by
  induction n with
  | zero => simp
  | succ n ih =>
    rw [List.range_succ, List.map_append, List.sum_append, ih]
    by_cases h1 : S < n
    · rw [if_pos h1, if_pos (by omega)]
      simp [show n ≠ S by omega]
    · rw [if_neg h1]
      by_cases h2 : S = n
      · rw [if_pos (by omega)]
        simp [h2]
      · rw [if_neg (by omega)]
        simp [show n ≠ S by omega]

theorem sqrt_writes_once (basis : List ℕ) (f : ℕ) (hf : f < basis.sum) :
    ((csamPairs basis.length).filter (fun pq =>
      decide (pq.2 = pq.1 ∧ offsetOf basis pq.1 ≤ f ∧
        f < offsetOf basis pq.1 + basis.getD pq.1 0))).length = 1 := by
  rw [← List.countP_eq_length_filter, csamPairs, List.countP_flatMap]
  have hrow : ∀ P ∈ List.range basis.length,
      (List.countP (fun pq =>
        decide (pq.2 = pq.1 ∧ offsetOf basis pq.1 ≤ f ∧
          f < offsetOf basis pq.1 + basis.getD pq.1 0)) ∘ csamRow) P =
      (fun P => if P = shellOf basis f then (1 : ℕ) else 0) P := by
    intro P hP
    have hPlen : P < basis.length := List.mem_range.mp hP
    simp only [Function.comp]
    rw [csamRow, List.countP_map, List.countP_reverse]
    by_cases hB : offsetOf basis P ≤ f ∧ f < offsetOf basis P + basis.getD P 0
    · have hPS : P = shellOf basis f := (inBlock_iff basis hPlen hf).mp hB
      rw [if_pos hPS]
      have hcong : ∀ Q ∈ List.range (P + 1),
          ((fun pq => decide (pq.2 = pq.1 ∧ offsetOf basis pq.1 ≤ f ∧
            f < offsetOf basis pq.1 + basis.getD pq.1 0)) ∘ (fun Q => (P, Q))) Q = true ↔
          (fun Q => decide (Q = P)) Q = true := by
        intro Q hQ
        simp only [Function.comp, decide_eq_true_iff]
        constructor
        · rintro ⟨hq1, _, _⟩; exact hq1
        · intro hq1; exact ⟨hq1, hB.1, hB.2⟩
      rw [List.countP_congr hcong, countP_range_eq, if_pos (by omega)]
    · have hPS : ¬ P = shellOf basis f := fun hPS =>
        hB ((inBlock_iff basis hPlen hf).mpr hPS)
      rw [if_neg hPS]
      apply List.countP_eq_zero.mpr
      intro Q hQ
      simp only [Function.comp, decide_eq_true_iff]
      rintro ⟨_, hq2, hq3⟩
      exact hB ⟨hq2, hq3⟩
  rw [List.map_congr_left hrow, sum_map_ite_range,
    if_pos (shellOf_spec basis f hf).1]

/-- C9: during csam_integrals each diagonal square root is written exactly
once, namely by the iteration (P, P) where P is the shell of the function;
the final function_sqrt_ holds exactly the populated values; and every
stored exchange cross maximum equals the value computed with the fully
populated square-root vector as divisors, so the outer-ascending,
inner-descending traversal never reads an unpopulated entry. -/
theorem C9_diag_sqrt_discipline (basis : List ℕ) (buf : Buffer) (sqrtFn : ℚ → ℚ)
    (f P Q : ℕ) (hf : f < basis.sum) (hQP : Q ≤ P) (hP : P < basis.length) :
    (((csamPairs basis.length).filter (fun pq =>
        decide (pq.2 = pq.1 ∧ offsetOf basis pq.1 ≤ f ∧
          f < offsetOf basis pq.1 + basis.getD pq.1 0))).length = 1) ∧
    (∀ pq ∈ csamPairs basis.length,
      (pq.2 = pq.1 ∧ offsetOf basis pq.1 ≤ f ∧
        f < offsetOf basis pq.1 + basis.getD pq.1 0) →
      pq = (shellOf basis f, shellOf basis f)) ∧
    ((csam_integrals basis buf sqrtFn (integrals basis buf initState)).function_sqrt_ f =
      finalSqrt basis buf sqrtFn f) ∧
    ((csam_integrals basis buf sqrtFn
        (integrals basis buf initState)).shell_pair_exchange_values_
      (P * basis.length + Q) = csamXPure basis buf sqrtFn P Q) := by
  obtain ⟨hout1, hout2⟩ := csam_outer basis buf sqrtFn basis.length le_rfl
  refine ⟨sqrt_writes_once basis f hf, ?_, ?_, ?_⟩
  · rintro ⟨a, b⟩ hmem ⟨h1, h2, h3⟩
    have hab := mem_csamPairs.mp hmem
    simp only at h1 h2 h3
    subst h1
    have := (inBlock_iff basis (by omega) hf).mp ⟨h2, h3⟩
    rw [← this]
  · exact hout1 f hf (shellOf_spec basis f hf).1
  · exact (hout2 P Q hQP hP).1

/-- C9 witness at the 2-shell toy system with the identity in place of the
library square root. -/
theorem C9_witness :
    (((csamPairs ([1, 1] : List ℕ).length).filter (fun pq =>
        decide (pq.2 = pq.1 ∧ offsetOf [1, 1] pq.1 ≤ 0 ∧
          0 < offsetOf [1, 1] pq.1 + ([1, 1] : List ℕ).getD pq.1 0))).length = 1) ∧
    (∀ pq ∈ csamPairs ([1, 1] : List ℕ).length,
      (pq.2 = pq.1 ∧ offsetOf [1, 1] pq.1 ≤ 0 ∧
        0 < offsetOf [1, 1] pq.1 + ([1, 1] : List ℕ).getD pq.1 0) →
      pq = (shellOf [1, 1] 0, shellOf [1, 1] 0)) ∧
    ((csam_integrals [1, 1] toyBuf id (integrals [1, 1] toyBuf initState)).function_sqrt_ 0 =
      finalSqrt [1, 1] toyBuf id 0) ∧
    ((csam_integrals [1, 1] toyBuf id
        (integrals [1, 1] toyBuf initState)).shell_pair_exchange_values_
      (1 * ([1, 1] : List ℕ).length + 0) = csamXPure [1, 1] toyBuf id 1 0) :=
  C9_diag_sqrt_discipline [1, 1] toyBuf id 0 1 0 (by decide) (by decide) (by decide)

/-- C5 witness at a one-shell state with constant matrices. -/
theorem C5_witness :
    (shell_significant_csam (set_sieve constSieve 1) 0 0 0 0 = true ↔
      (1 : ℚ) * 1 ≤ |constSieve.shell_pair_values_ (0 * constSieve.nshell_ + 0) *
        constSieve.shell_pair_values_ (0 * constSieve.nshell_ + 0) *
        max (constSieve.shell_pair_exchange_values_ (0 * constSieve.nshell_ + 0) *
             constSieve.shell_pair_exchange_values_ (0 * constSieve.nshell_ + 0))
            (constSieve.shell_pair_exchange_values_ (0 * constSieve.nshell_ + 0) *
             constSieve.shell_pair_exchange_values_ (0 * constSieve.nshell_ + 0))|) :=
  C5_csam_predicate constSieve 1 0 0 0 0 (by decide) (by decide) (by decide) (by decide)
    (fun _ _ _ _ => rfl)

end Psi
